import Mathlib

/-!
Verification development for the finite-difference option-pricing engine
(`FiniteDifferences`, `FDExplicitEu`, `FDImplicitEu`, `FDCnEu`, `FDCnDo`,
`FDCnAm`).  Real-valued numpy arithmetic is modelled over `ℚ`; the single
transcendental `np.exp` is abstracted as an explicit function argument
`E : ℚ → ℚ`, and the external `scipy.linalg` solver as an explicit
`solve` argument.  Grids are total functions `ℕ → ℕ → ℚ` (the numpy
array `grid` of shape (M+1)×(N+1)); the American solver's vectors are
`List ℚ` values mirroring the 1-d numpy arrays.
-/

/-- The constructor parameters of `FiniteDifferences.__init__`:
S0, K, r, T, sigma, Smax, M, N, is_put. -/
structure FDParams where
  S0 : ℚ
  K : ℚ
  r : ℚ
  T : ℚ
  sigma : ℚ
  Smax : ℚ
  M : ℕ
  N : ℕ
  is_put : Bool

/-- `self.is_call = not is_put`. -/
def fdIsCall (p : FDParams) : Bool := !p.is_put

/-- `dt = self.T/float(self.N)`. -/
def dtQ (p : FDParams) : ℚ := p.T / (p.N : ℚ)

/-- `dS = self.Smax/float(self.M)`. -/
def dSQ (p : FDParams) : ℚ := p.Smax / (p.M : ℚ)

/-- `self.boundary_conds = np.linspace(0, Smax, M+1)`: node `i` carries
price `i·Smax/M`. -/
def bcQ (p : FDParams) (i : ℕ) : ℚ := p.Smax * (i : ℚ) / (p.M : ℚ)

/-- Explicit-scheme coefficient `a` of `FDExplicitEu.setup_coefficients`:
`0.5*dt*((sigma**2)*(i**2) - r*i)` as a function of the index. -/
def expl_aF (p : FDParams) (i : ℕ) : ℚ :=
  1/2 * dtQ p * (p.sigma ^ 2 * (i : ℚ) ^ 2 - p.r * (i : ℚ))

/-- Explicit-scheme coefficient `b`: `1 - dt*((sigma**2)*(i**2) + r)`. -/
def expl_bF (p : FDParams) (i : ℕ) : ℚ :=
  1 - dtQ p * (p.sigma ^ 2 * (i : ℚ) ^ 2 + p.r)

/-- Explicit-scheme coefficient `c`: `0.5*dt*((sigma**2)*(i**2) + r*i)`. -/
def expl_cF (p : FDParams) (i : ℕ) : ℚ :=
  1/2 * dtQ p * (p.sigma ^ 2 * (i : ℚ) ^ 2 + p.r * (i : ℚ))

/-- The numpy array `self.a` itself: the coefficient formula evaluated on
`self.i_values = np.arange(self.M)`, an array of length `M`. -/
def expl_aL (p : FDParams) : List ℚ := (List.range p.M).map (expl_aF p)

/-- The numpy array `self.b` (length `M`). -/
def expl_bL (p : FDParams) : List ℚ := (List.range p.M).map (expl_bF p)

/-- The numpy array `self.c` (length `M`). -/
def expl_cL (p : FDParams) : List ℚ := (List.range p.M).map (expl_cF p)

/-- `np.zeros(shape=(M+1, N+1))` as a total function. -/
def npZeros : ℕ → ℕ → ℚ := fun _ _ => 0

/-- Single-cell in-place array write `grid[i,j] = v`. -/
def updCell (g : ℕ → ℕ → ℚ) (i j : ℕ) (v : ℚ) : ℕ → ℕ → ℚ :=
  fun a b => if a = i ∧ b = j then v else g a b

/-- `self.grid[:,-1] = payoff(...)`: writes the terminal column `j = N`
at every row `i ≤ M`. -/
def setTerminal (p : FDParams) (pay : ℕ → ℚ) (g : ℕ → ℕ → ℚ) : ℕ → ℕ → ℚ :=
  fun i j => if j = p.N ∧ i ≤ p.M then pay i else g i j

/-- `self.grid[row,:-1] = v(...)`: writes row `row` at every column
`j < N`. -/
def setRowCols (p : FDParams) (row : ℕ) (v : ℕ → ℚ) (g : ℕ → ℕ → ℚ) : ℕ → ℕ → ℚ :=
  fun i j => if i = row ∧ j < p.N then v j else g i j

/-- The discount factor `np.exp(-r*dt*(N-j))`, with `np.exp` abstracted
as `E`. -/
def discountF (E : ℚ → ℚ) (p : FDParams) (j : ℕ) : ℚ :=
  E (-(p.r * dtQ p * ((p.N : ℚ) - (j : ℚ))))

/-- `FDExplicitEu.setup_boundary_conditions`, generic in the price axis
`bc` (the vanilla classes use `bcQ`, the barrier class `FDCnDo` passes
its own `linspace(Sbarrier, Smax, M+1)` axis).  Call branch: terminal
payoff `max(0, bc-K)` and upper row `M` set to `(Smax-K)·exp(-r·dt·(N-j))`
on columns `j < N`; put branch: terminal payoff `max(0, K-bc)` and lower
row `0` set to `(K-Smax)·exp(-r·dt·(N-j))` on columns `j < N`. -/
def expl_bc (E : ℚ → ℚ) (p : FDParams) (bc : ℕ → ℚ) : ℕ → ℕ → ℚ :=
  if fdIsCall p then
    setRowCols p p.M (fun j => (p.Smax - p.K) * discountF E p j)
      (setTerminal p (fun i => max 0 (bc i - p.K)) npZeros)
  else
    setRowCols p 0 (fun j => (p.K - p.Smax) * discountF E p j)
      (setTerminal p (fun i => max 0 (p.K - bc i)) npZeros)

/-- `range(self.M)[2:]`: the interior indices `2, ..., M-1` visited by
the explicit scheme's inner loop. -/
def innerIdx (M : ℕ) : List ℕ := (List.range M).drop 2

/-- `reversed(self.j_values)` with `j_values = np.arange(N)`: the time
indices `N-1, ..., 0`. -/
def jRev (N : ℕ) : List ℕ := (List.range N).reverse

/-- The inner loop of `FDExplicitEu.traverse_grid` at time index `j`:
for each `i` in the list, performs
`grid[i,j] = a[i]*grid[i-1,j+1] + b[i]*grid[i,j+1] + c[i]*grid[i+1,j+1]`. -/
def explInner (p : FDParams) (j : ℕ) : List ℕ → (ℕ → ℕ → ℚ) → ℕ → ℕ → ℚ
  | [], g => g
  | i :: rest, g =>
      explInner p j rest
        (updCell g i j
          (expl_aF p i * g (i - 1) (j + 1) + expl_bF p i * g i (j + 1) +
            expl_cF p i * g (i + 1) (j + 1)))

/-- The outer loop of `FDExplicitEu.traverse_grid` over the given time
indices. -/
def explTraverse (p : FDParams) : List ℕ → (ℕ → ℕ → ℚ) → ℕ → ℕ → ℚ
  | [], g => g
  | j :: rest, g => explTraverse p rest (explInner p j (innerIdx p.M) g)

/-- The grid produced by `FDExplicitEu`: boundary conditions followed by
the full backward traversal. -/
def explGrid (E : ℚ → ℚ) (p : FDParams) : ℕ → ℕ → ℚ :=
  explTraverse p (jRev p.N) (expl_bc E p (bcQ p))

/-- `np.interp(x, xp, fp)` on the knot list `zip xp fp`: piecewise
linear interpolation, clamped to the edge values outside the knot range. -/
def npInterp (x : ℚ) : List (ℚ × ℚ) → ℚ
  | [] => 0
  | [(_, f0)] => f0
  | (x0, f0) :: (x1, f1) :: rest =>
      if x < x0 then f0
      else if x ≤ x1 then f0 + (f1 - f0) * (x - x0) / (x1 - x0)
      else npInterp x ((x1, f1) :: rest)

/-- The knot list `zip(boundary_conds, grid[:,0])` used by
`FiniteDifferences.interpolate`. -/
def euKnots (p : FDParams) (g : ℕ → ℕ → ℚ) : List (ℚ × ℚ) :=
  (List.range (p.M + 1)).map (fun t => (bcQ p t, g t 0))

/-- `FiniteDifferences.interpolate`:
`np.interp(S0, boundary_conds, grid[:,0])`. -/
def fdInterpolate (p : FDParams) (g : ℕ → ℕ → ℚ) : ℚ := npInterp p.S0 (euKnots p g)

/-- `FDExplicitEu.price()`: boundary conditions, coefficients, traversal,
interpolation. -/
def explPrice (E : ℚ → ℚ) (p : FDParams) : ℚ := fdInterpolate p (explGrid E p)

/-- Crank-Nicolson coefficient `alpha` of `FDCnEu.setup_coefficients`:
`0.25*dt*((sigma**2)*(i**2) - r*i)`. -/
def cn_alphaF (p : FDParams) (i : ℕ) : ℚ :=
  1/4 * dtQ p * (p.sigma ^ 2 * (i : ℚ) ^ 2 - p.r * (i : ℚ))

/-- Crank-Nicolson coefficient `beta`: `-dt*0.5*((sigma**2)*(i**2) + r)`. -/
def cn_betaF (p : FDParams) (i : ℕ) : ℚ :=
  -(dtQ p) * (1/2) * (p.sigma ^ 2 * (i : ℚ) ^ 2 + p.r)

/-- Crank-Nicolson coefficient `gamma`: `0.25*dt*((sigma**2)*(i**2) + r*i)`. -/
def cn_gammaF (p : FDParams) (i : ℕ) : ℚ :=
  1/4 * dtQ p * (p.sigma ^ 2 * (i : ℚ) ^ 2 + p.r * (i : ℚ))

/-- `np.diag(w, -1)` as an n×n matrix: entry `(t+1, t)` is `w t`. -/
def npDiagL (n : ℕ) (w : ℕ → ℚ) : Matrix (Fin n) (Fin n) ℚ :=
  Matrix.of fun k l => if (k : ℕ) = (l : ℕ) + 1 then w (l : ℕ) else 0

/-- `np.diag(w)`: entry `(t, t)` is `w t`. -/
def npDiag0 (n : ℕ) (w : ℕ → ℚ) : Matrix (Fin n) (Fin n) ℚ :=
  Matrix.of fun k l => if (k : ℕ) = (l : ℕ) then w (k : ℕ) else 0

/-- `np.diag(w, 1)`: entry `(t, t+1)` is `w t`. -/
def npDiagU (n : ℕ) (w : ℕ → ℚ) : Matrix (Fin n) (Fin n) ℚ :=
  Matrix.of fun k l => if (l : ℕ) = (k : ℕ) + 1 then w (k : ℕ) else 0

/-- `self.M1 = -np.diag(alpha[2:M],-1) + np.diag(1-beta[1:M]) -
np.diag(gamma[1:M-1],1)` of `FDCnEu.setup_coefficients`.  The slice
`alpha[2:M]` has entries `alpha[t+2]`, `beta[1:M]` has `beta[t+1]`,
`gamma[1:M-1]` has `gamma[t+1]`. -/
def cnM1 (p : FDParams) : Matrix (Fin (p.M - 1)) (Fin (p.M - 1)) ℚ :=
  -npDiagL (p.M - 1) (fun t => cn_alphaF p (t + 2)) +
    npDiag0 (p.M - 1) (fun t => 1 - cn_betaF p (t + 1)) -
    npDiagU (p.M - 1) (fun t => cn_gammaF p (t + 1))

/-- `self.M2 = np.diag(alpha[2:M],-1) + np.diag(1+beta[1:M]) +
np.diag(gamma[1:M-1],1)`. -/
def cnM2 (p : FDParams) : Matrix (Fin (p.M - 1)) (Fin (p.M - 1)) ℚ :=
  npDiagL (p.M - 1) (fun t => cn_alphaF p (t + 2)) +
    npDiag0 (p.M - 1) (fun t => 1 + cn_betaF p (t + 1)) +
    npDiagU (p.M - 1) (fun t => cn_gammaF p (t + 1))

/-- `FDCnEu.traverse_grid`, generic in the M2 operator and in the
external `scipy.linalg` LU solver (the composite of the two
`linalg.solve` calls), which is abstracted as `solve`.  Each step writes
`grid[1:M, j]` from `np.dot(M2, grid[1:M, j+1])`. -/
def cnTraverse (m : ℕ) (m2 : Matrix (Fin (m - 1)) (Fin (m - 1)) ℚ)
    (solve : (ℕ → ℚ) → ℕ → ℚ) : List ℕ → (ℕ → ℕ → ℚ) → ℕ → ℕ → ℚ
  | [], g => g
  | j :: rest, g =>
      let rhs : ℕ → ℚ := fun k =>
        if h : k < m - 1 then m2.mulVec (fun l => g ((l : ℕ) + 1) (j + 1)) ⟨k, h⟩ else 0
      let x := solve rhs
      cnTraverse m m2 solve rest
        (fun a b => if b = j ∧ 1 ≤ a ∧ a ≤ m - 1 then x (a - 1) else g a b)

/-- The constructor parameters of `FDCnDo.__init__`, adding the barrier
level `Sbarrier`. -/
structure DoParams extends FDParams where
  Sbarrier : ℚ

/-- `FDCnDo.dS = (Smax-barrier)/float(M)`. -/
def dSDo (p : DoParams) : ℚ := (p.Smax - p.Sbarrier) / (p.M : ℚ)

/-- `FDCnDo.boundary_conds = np.linspace(Sbarrier, Smax, M+1)`. -/
def bcDoQ (p : DoParams) (i : ℕ) : ℚ :=
  p.Sbarrier + (p.Smax - p.Sbarrier) * (i : ℚ) / (p.M : ℚ)

/-- `FDCnDo.i_values = boundary_conds/dS` (a non-integer price-step
axis). -/
def doIv (p : DoParams) (i : ℕ) : ℚ := bcDoQ p i / dSDo p

/-- `alpha` as computed by the inherited `FDCnEu.setup_coefficients` on
the barrier axis `doIv`. -/
def cnDo_alphaF (p : DoParams) (i : ℕ) : ℚ :=
  1/4 * dtQ p.toFDParams * (p.sigma ^ 2 * doIv p i ^ 2 - p.r * doIv p i)

/-- `beta` on the barrier axis. -/
def cnDo_betaF (p : DoParams) (i : ℕ) : ℚ :=
  -(dtQ p.toFDParams) * (1/2) * (p.sigma ^ 2 * doIv p i ^ 2 + p.r)

/-- `gamma` on the barrier axis. -/
def cnDo_gammaF (p : DoParams) (i : ℕ) : ℚ :=
  1/4 * dtQ p.toFDParams * (p.sigma ^ 2 * doIv p i ^ 2 + p.r * doIv p i)

/-- The barrier variant's `M2` operator. -/
def cnDoM2 (p : DoParams) : Matrix (Fin (p.M - 1)) (Fin (p.M - 1)) ℚ :=
  npDiagL (p.M - 1) (fun t => cnDo_alphaF p (t + 2)) +
    npDiag0 (p.M - 1) (fun t => 1 + cnDo_betaF p (t + 1)) +
    npDiagU (p.M - 1) (fun t => cnDo_gammaF p (t + 1))

/-- The grid produced by `FDCnDo.price()` up to interpolation: the
inherited boundary setter on the barrier axis, then the Crank-Nicolson
traversal. -/
def cnDoGrid (E : ℚ → ℚ) (solve : (ℕ → ℚ) → ℕ → ℚ) (p : DoParams) : ℕ → ℕ → ℚ :=
  cnTraverse p.M (cnDoM2 p) solve (jRev p.N) (expl_bc E p.toFDParams (bcDoQ p))

/-- The constructor parameters of `FDCnAm.__init__`, adding the
relaxation factor `omega` and the tolerance `tol`. -/
structure AmParams extends FDParams where
  omega : ℚ
  tol : ℚ

/-- `FDCnAm.setup_boundary_conditions`: the early-exercise payoff vector
`np.maximum(0, ±(boundary_conds[1:M] - K))`, an array of length `M-1`
indexed by the interior node offset `k` (price node `k+1`). -/
def amPayoffs (p : AmParams) : List ℚ :=
  (List.range (p.M - 1)).map (fun k =>
    if fdIsCall p.toFDParams then max 0 (bcQ p.toFDParams (k + 1) - p.K)
    else max 0 (p.K - bcQ p.toFDParams (k + 1)))

/-- `self.boundary_values = K * np.exp(-r*dt*(N-j_values))`. -/
def amBoundaryValues (E : ℚ → ℚ) (p : AmParams) (j : ℕ) : ℚ :=
  p.K * discountF E p.toFDParams j

/-- `range(self.M-2)[1:]`: the strictly interior sweep indices
`1, ..., M-3` of the PSOR inner loop. -/
def innerK (M : ℕ) : List ℕ := (List.range (M - 2)).drop 1

/-- One PSOR sweep of `FDCnAm.traverse_grid`: the start-boundary update
(`calculate_payoff_start_boundary`), the Gauss-Seidel interior updates
(`calculate_payoff`), and the end-boundary update
(`calculate_payoff_end_boundary`), each clamped below by the payoff. -/
def amSweep (p : AmParams) (rhs old nv : List ℚ) : List ℚ :=
  let pay := amPayoffs p
  let s0 := nv.set 0
    (max (pay.getD 0 0)
      (old.getD 0 0 + p.omega / (1 - cn_betaF p.toFDParams 1) *
        (rhs.getD 0 0 - (1 - cn_betaF p.toFDParams 1) * old.getD 0 0 +
          cn_gammaF p.toFDParams 1 * old.getD 1 0)))
  let s1 := (innerK p.M).foldl (fun s k => s.set k
    (max (pay.getD k 0)
      (old.getD k 0 + p.omega / (1 - cn_betaF p.toFDParams (k + 1)) *
        (rhs.getD k 0 + cn_alphaF p.toFDParams (k + 1) * s.getD (k - 1) 0 -
          (1 - cn_betaF p.toFDParams (k + 1)) * old.getD k 0 +
          cn_gammaF p.toFDParams (k + 1) * old.getD (k + 1) 0)))) s0
  s1.set (p.M - 2)
    (max (pay.getD (p.M - 2) 0)
      (old.getD (p.M - 2) 0 + p.omega / (1 - cn_betaF p.toFDParams (p.M - 1)) *
        (rhs.getD (p.M - 2) 0 + cn_alphaF p.toFDParams (p.M - 1) * s1.getD (p.M - 3) 0 -
          (1 - cn_betaF p.toFDParams (p.M - 1)) * old.getD (p.M - 2) 0)))

/-- `sys.float_info.max`: the largest IEEE-754 double, `2^1024 - 2^971`,
written out as an integer literal (see `floatMax_eq_pow`). -/
def floatMax : ℚ := 179769313486231570814527423731704356798070567525844996598917476803157260780028538760589558632766878171540458953514382464234321326889464182768467546703537516986049910576551282076245490090389328944075868508455133942304583236903222948165808559332123348274797826204144723168738177180919299881250404026184124858368

/-- The value carried by the loop variable `error`: either its
initialisation `sys.float_info.max` or the squared Euclidean norm
`s = Σ (new-old)²` standing for `np.linalg.norm(new-old) = √s`. -/
inductive PErr where
  | initMax : PErr
  | normSq : ℚ → PErr
deriving DecidableEq

/-- The while-loop guard `self.tol < error`.  For `error = √s` this is
encoded exactly: `tol < √s ↔ tol < 0 ∨ tol² < s` (for `s ≥ 0`). -/
def errGuard (tol : ℚ) : PErr → Bool
  | PErr.initMax => decide (tol < floatMax)
  | PErr.normSq s => decide (tol < 0) || decide (tol ^ 2 < s)

/-- The squared Euclidean norm `Σ_{k<n} (nv[k]-old[k])²` underlying
`np.linalg.norm(new_values-old_values)`. -/
def errSqSum (nv old : List ℚ) (n : ℕ) : ℚ :=
  ((List.range n).map (fun k => (nv.getD k 0 - old.getD k 0) ^ 2)).sum

/-- The `while self.tol < error:` loop of `FDCnAm.traverse_grid`,
instrumented with fuel: `none` means the loop is still running after
`fuel` sweeps (the code has no iteration bound of its own).  After each
sweep the code sets `old_values` and `past_values` to copies of
`new_values`; on exit it returns the pair `(new_values, past_values)`. -/
def psorLoop (p : AmParams) (rhs : List ℚ) :
    ℕ → List ℚ → List ℚ → List ℚ → PErr → Option (List ℚ × List ℚ)
  | 0, _, nv, past, err => if errGuard p.tol err then none else some (nv, past)
  | fuel + 1, old, nv, past, err =>
      if errGuard p.tol err then
        let nv2 := amSweep p rhs old nv
        psorLoop p rhs fuel nv2 nv2 nv2 (PErr.normSq (errSqSum nv2 old (p.M - 1)))
      else some (nv, past)

/-- `rhs = np.dot(self.M2, self.past_values) + aux` with
`aux[0] = alpha[1]*(boundary_values[j] + boundary_values[j+1])`. -/
def amRhs (E : ℚ → ℚ) (p : AmParams) (j : ℕ) (past : List ℚ) : List ℚ :=
  (List.range (p.M - 1)).map (fun k =>
    (if h : k < p.M - 1 then
        (cnM2 p.toFDParams).mulVec (fun l => past.getD (l : ℕ) 0) ⟨k, h⟩
      else 0) +
      (if k = 0 then
        cn_alphaF p.toFDParams 1 * (amBoundaryValues E p j + amBoundaryValues E p (j + 1))
      else 0))

/-- The time-stepping loop of `FDCnAm.traverse_grid` over the given time
indices, threading `past_values` and the persistent `new_values` array;
`none` when some inner PSOR loop fails to exit within the fuel. -/
def amTraverse (E : ℚ → ℚ) (p : AmParams) :
    List ℕ → List ℚ → List ℚ → ℕ → Option (List ℚ × List ℚ)
  | [], past, nv, _ => some (nv, past)
  | j :: rest, past, nv, fuel =>
      match psorLoop p (amRhs E p j past) fuel past nv past PErr.initMax with
      | none => none
      | some (nv2, past2) => amTraverse E p rest past2 nv2 fuel

/-- `self.values = np.concatenate(([boundary_values[0]], new_values, [0]))`. -/
def amValues (E : ℚ → ℚ) (p : AmParams) (nv : List ℚ) : List ℚ :=
  amBoundaryValues E p 0 :: nv ++ [0]

/-- `FDCnAm.interpolate`: `np.interp(S0, boundary_conds, values)`. -/
def amInterpolate (p : AmParams) (vals : List ℚ) : ℚ :=
  npInterp p.S0 ((List.range (p.M + 1)).map (fun t => (bcQ p.toFDParams t, vals.getD t 0)))

/-- Modelled from the spec: the `InvalidParameters` predicate of the
error-handling design ("non-positive T, σ, K, Smax, M, N; Smax not
exceeding strike/spot").  The source contains no such check; this
definition exists only to state the claim against the code. -/
def specInvalidParams (p : FDParams) : Prop :=
  p.T ≤ 0 ∨ p.sigma ≤ 0 ∨ p.K ≤ 0 ∨ p.Smax ≤ 0 ∨ p.M = 0 ∨ p.N = 0 ∨
    p.Smax ≤ max p.K p.S0

instance : DecidablePred specInvalidParams := fun p => by
  unfold specInvalidParams; infer_instance

/-- Shared concrete stand-in for `np.exp` in witnesses: all of them set
`r = 0`, where every discount exponent is `0` and `exp` is exactly `1`. -/
def oneE : ℚ → ℚ := fun _ => 1

/-- Concrete explicit-scheme parameters for witnesses. -/
def cp1 : FDParams := ⟨2, 3, 0, 1, 1, 4, 4, 2, true⟩

/-- Concrete parameters with `M = 2` for the coefficient-length claim. -/
def cp2 : FDParams := ⟨1, 1, 0, 1, 1, 2, 2, 1, false⟩

/-- Concrete put parameters (`Smax > max(K, S0)`) for the boundary
claims. -/
def cp3 : FDParams := ⟨6, 5, 0, 1, 1, 10, 2, 1, true⟩

/-- Concrete parameters with `M = 4` for the Crank-Nicolson operator
claim. -/
def cp4 : FDParams := ⟨1, 1, 0, 1, 1, 4, 4, 1, false⟩

/-- Concrete American-solver parameters (`omega = 0`, `tol = 0`): the
PSOR loop converges after one sweep. -/
def cp5 : AmParams := ⟨⟨1, 2, 0, 1, 0, 3, 3, 1, true⟩, 0, 0⟩

/-- The same American parameters with `tol = -1`: the loop guard
`tol < error` can never become false. -/
def cp6 : AmParams := ⟨⟨1, 2, 0, 1, 0, 3, 3, 1, true⟩, 0, -1⟩

/-- Concrete invalid parameters (`T = -1 ≤ 0`) on which the code still
prices. -/
def cp7 : FDParams := ⟨2, 1, 0, -1, 1, 4, 2, 1, false⟩

/-- Invalid parameters (`T = -1`) with `M = 3`, giving a nonempty
interior for the traversal recursion. -/
def cp7b : FDParams := ⟨2, 1, 0, -1, 1, 4, 3, 1, false⟩

/-- Concrete down-and-out put parameters: the failing input of the
barrier-boundary claim. -/
def cp8 : DoParams := ⟨⟨50, 50, 0, 1, 1, 100, 3, 1, true⟩, 40⟩

/-- Concrete parameters whose spot `S0 = 3` sits exactly on price node
`i = 3` of the axis `linspace(0, 4, 5)`. -/
def cp9 : FDParams := ⟨3, 2, 0, 1, 1, 4, 4, 1, true⟩

/-- An arbitrary concrete grid for the interpolation witness. -/
def g9 : ℕ → ℕ → ℚ := fun i j => (i : ℚ) + 2 * (j : ℚ) + 5

/-- An arbitrary concrete American value vector of length `M + 1 = 5`. -/
def vals9 : List ℚ := [5, 7, 9, 11, 13]

/-- American parameters matching `cp9` for the interpolation witness. -/
def cp9a : AmParams := ⟨⟨3, 2, 0, 1, 1, 4, 4, 1, true⟩, 1, 0⟩

/-- Concrete parameters whose spot lies strictly between the first two
price nodes (`0 < S0 = 1 ≤ dS = 1`). -/
def cp10 : FDParams := ⟨1, 3, 0, 1, 1, 4, 4, 2, true⟩

section

attribute [local semireducible] Rat.mul Rat.add Rat.sub Rat.inv Rat.ofScientific

/-- Sanity check: `floatMax` is exactly `2^1024 - 2^971`. -/
theorem floatMax_eq_pow : floatMax = 2 ^ 1024 - 2 ^ 971 := by
  norm_num [floatMax]

theorem mapRange_getD (f : ℕ → ℚ) (n i : ℕ) (h : i < n) :
    ((List.range n).map f).getD i 0 = f i := by
  have hl : i < ((List.range n).map f).length := by simpa using h
  rw [List.getD_eq_getElem?_getD, List.getElem?_eq_getElem hl]
  simp

theorem getD_set_self (l : List ℚ) (k : ℕ) (v : ℚ) (h : k < l.length) :
    (l.set k v).getD k 0 = v := by
  rw [List.getD_eq_getElem?_getD, List.getElem?_set_self (by simpa using h)]
  rfl

theorem getD_set_ne (l : List ℚ) (k m : ℕ) (v : ℚ) (h : k ≠ m) :
    (l.set k v).getD m 0 = l.getD m 0 := by
  rw [List.getD_eq_getElem?_getD, List.getD_eq_getElem?_getD,
    List.getElem?_set_ne h]

theorem drop_range_eq (k n : ℕ) (h : k ≤ n) :
    (List.range n).drop k = (List.range (n - k)).map (fun t => k + t) := by
  conv_lhs => rw [show n = k + (n - k) from (Nat.add_sub_cancel' h).symm]
  rw [List.range_add, List.drop_left' (List.length_range k)]

theorem mem_innerIdx {M i : ℕ} : i ∈ innerIdx M ↔ 2 ≤ i ∧ i < M := by
  unfold innerIdx
  rcases le_or_lt 2 M with h | h
  · rw [drop_range_eq 2 M h]
    simp only [List.mem_map, List.mem_range]
    constructor
    · rintro ⟨t, ht, rfl⟩; omega
    · rintro ⟨h2, hM⟩; exact ⟨i - 2, by omega, by omega⟩
  · have hnil : (List.range M).drop 2 = [] :=
      List.drop_eq_nil_of_le (by simpa using by omega)
    rw [hnil]
    simp
    omega

theorem nodup_innerIdx (M : ℕ) : (innerIdx M).Nodup :=
  (List.drop_sublist 2 (List.range M)).nodup (List.nodup_range M)

theorem jRev_pairwise (N : ℕ) : (jRev N).Pairwise (· > ·) := by
  unfold jRev
  rw [List.pairwise_reverse]
  exact List.pairwise_lt_range N

theorem mem_jRev {N j : ℕ} : j ∈ jRev N ↔ j < N := by
  simp [jRev, List.mem_reverse, List.mem_range]

theorem explInner_ne (p : FDParams) (j : ℕ) (L : List ℕ) (g : ℕ → ℕ → ℚ)
    (a b : ℕ) (h : b ≠ j ∨ a ∉ L) :
    explInner p j L g a b = g a b := by
  induction L generalizing g with
  | nil => rfl
  | cons i rest ih =>
    simp only [explInner]
    rcases h with hb | ha
    · rw [ih _ (Or.inl hb)]
      simp [updCell, hb]
    · have h1 : a ≠ i := fun he => ha (he ▸ List.mem_cons_self i rest)
      have h2 : a ∉ rest := fun hm => ha (List.mem_cons_of_mem i hm)
      rw [ih _ (Or.inr h2)]
      simp [updCell, h1]

theorem explInner_mem (p : FDParams) (j : ℕ) (L : List ℕ) (g : ℕ → ℕ → ℚ)
    (i : ℕ) (hmem : i ∈ L) (hnd : L.Nodup) :
    explInner p j L g i j =
      expl_aF p i * g (i - 1) (j + 1) + expl_bF p i * g i (j + 1) +
        expl_cF p i * g (i + 1) (j + 1) := by
  induction L generalizing g with
  | nil => cases hmem
  | cons i0 rest ih =>
    simp only [explInner]
    rcases List.mem_cons.mp hmem with rfl | hmem2
    · have hni : i ∉ rest := (List.nodup_cons.mp hnd).1
      rw [explInner_ne p j rest _ i j (Or.inr hni)]
      simp [updCell]
    · rw [ih _ hmem2 (List.nodup_cons.mp hnd).2]
      simp [updCell, Nat.succ_ne_self]

theorem explTraverse_ne (p : FDParams) (L : List ℕ) (g : ℕ → ℕ → ℚ)
    (a b : ℕ) (h : b ∉ L) :
    explTraverse p L g a b = g a b := by
  induction L generalizing g with
  | nil => rfl
  | cons j rest ih =>
    simp only [explTraverse]
    have h1 : b ≠ j := fun he => h (he ▸ List.mem_cons_self j rest)
    have h2 : b ∉ rest := fun hm => h (List.mem_cons_of_mem j hm)
    rw [ih _ h2, explInner_ne p j _ _ a b (Or.inl h1)]

theorem explTraverse_rec (p : FDParams) :
    ∀ L : List ℕ, L.Pairwise (· > ·) → ∀ (g : ℕ → ℕ → ℚ) (i j : ℕ),
      j ∈ L → i ∈ innerIdx p.M →
      explTraverse p L g i j =
        expl_aF p i * explTraverse p L g (i - 1) (j + 1) +
          expl_bF p i * explTraverse p L g i (j + 1) +
          expl_cF p i * explTraverse p L g (i + 1) (j + 1) := by
  intro L
  induction L with
  | nil => intro _ g i j hj _; cases hj
  | cons j0 rest ih =>
    intro hso g i j hj hi
    have hlt : ∀ x ∈ rest, x < j0 := fun x hx => (List.pairwise_cons.mp hso).1 x hx
    rcases List.mem_cons.mp hj with rfl | hj2
    · have hjr : j ∉ rest := fun hx => lt_irrefl j (hlt j hx)
      have hj1r : j + 1 ∉ rest := fun hx => by have := hlt _ hx; omega
      simp only [explTraverse]
      rw [explTraverse_ne p rest _ i j hjr]
      rw [explTraverse_ne p rest _ (i - 1) (j + 1) hj1r]
      rw [explTraverse_ne p rest _ i (j + 1) hj1r]
      rw [explTraverse_ne p rest _ (i + 1) (j + 1) hj1r]
      rw [explInner_mem p j _ g i hi (nodup_innerIdx p.M)]
      rw [explInner_ne p j _ g (i - 1) (j + 1) (Or.inl (by omega))]
      rw [explInner_ne p j _ g i (j + 1) (Or.inl (by omega))]
      rw [explInner_ne p j _ g (i + 1) (j + 1) (Or.inl (by omega))]
    · exact ih (List.Pairwise.of_cons hso) _ i j hj2 hi

/-- C1: for the explicit scheme, the traversed grid satisfies the
backward recursion `Grid[i,j] = a[i]·Grid[i-1,j+1] + b[i]·Grid[i,j+1] +
c[i]·Grid[i+1,j+1]` for every time index `j < N` and every interior
price index `i ∈ 2..M-1`, with the right-hand side read entirely from
column `j+1`; no linear solve is involved. -/
theorem expl_traverse_backward_recursion (E : ℚ → ℚ) (p : FDParams) (i j : ℕ)
    (h2 : 2 ≤ i) (hiM : i ≤ p.M - 1) (hj : j < p.N) :
    explGrid E p i j =
      expl_aF p i * explGrid E p (i - 1) (j + 1) +
        expl_bF p i * explGrid E p i (j + 1) +
        expl_cF p i * explGrid E p (i + 1) (j + 1) := by
  have hi : i ∈ innerIdx p.M := mem_innerIdx.mpr ⟨h2, by omega⟩
  unfold explGrid
  exact explTraverse_rec p (jRev p.N) (jRev_pairwise p.N) _ i j
    (mem_jRev.mpr hj) hi

/-- Witness for C1 at concrete parameters (`M = 4`, `N = 2`, `i = 2`,
`j = 1`). -/
theorem expl_traverse_backward_recursion_w :
    explGrid oneE cp1 2 1 =
      expl_aF cp1 2 * explGrid oneE cp1 1 2 +
        expl_bF cp1 2 * explGrid oneE cp1 2 2 +
        expl_cF cp1 2 * explGrid oneE cp1 3 2 :=
  expl_traverse_backward_recursion oneE cp1 2 1 (by decide) (by decide)
    (by decide)

/-- C2 counterexample: with `M = 2` the coefficient arrays built on
`i_values = np.arange(M)` have length `2`, not `M + 1 = 3`: they are not
defined for every index `i = 0..M` and in particular carry no entry at
`i = M`. -/
theorem expl_coeff_length_cex :
    (expl_aL cp2).length = 2 ∧ (expl_bL cp2).length = 2 ∧
      (expl_cL cp2).length = 2 ∧ ¬(expl_aL cp2).length = cp2.M + 1 := by
  decide

/-- C2 amended: the explicit coefficient arrays have length `M` (indices
`i = 0..M-1`, not `0..M`), and at every such index
`a[i] = ½·dt·(σ²i² - r·i)`, `b[i] = 1 - dt·(σ²i² + r)`,
`c[i] = ½·dt·(σ²i² + r·i)`. -/
theorem expl_coeff_values (p : FDParams) :
    (expl_aL p).length = p.M ∧ (expl_bL p).length = p.M ∧
      (expl_cL p).length = p.M ∧
      ∀ i : ℕ, i < p.M →
        (expl_aL p).getD i 0 =
            1/2 * dtQ p * (p.sigma ^ 2 * (i : ℚ) ^ 2 - p.r * (i : ℚ)) ∧
          (expl_bL p).getD i 0 =
            1 - dtQ p * (p.sigma ^ 2 * (i : ℚ) ^ 2 + p.r) ∧
          (expl_cL p).getD i 0 =
            1/2 * dtQ p * (p.sigma ^ 2 * (i : ℚ) ^ 2 + p.r * (i : ℚ)) := by
  refine ⟨by simp [expl_aL], by simp [expl_bL], by simp [expl_cL], ?_⟩
  intro i hi
  refine ⟨?_, ?_, ?_⟩
  · rw [expl_aL, mapRange_getD _ _ _ hi]; rfl
  · rw [expl_bL, mapRange_getD _ _ _ hi]; rfl
  · rw [expl_cL, mapRange_getD _ _ _ hi]; rfl

/-- Witness for the amended C2 at `M = 2`, `i = 1`. -/
theorem expl_coeff_values_w :
    (expl_aL cp2).getD 1 0 =
      1/2 * dtQ cp2 * (cp2.sigma ^ 2 * (1 : ℚ) ^ 2 - cp2.r * (1 : ℚ)) :=
  ((expl_coeff_values cp2).2.2.2 1 (by decide)).1

/-- C3 counterexample: for the concrete put `cp3` (`K = 5`,
`Smax = 10 > max(K, S0)`, `r = 0`) the lower boundary at column `0` is
`(K - Smax)·exp(0) = -5`, not the discounted strike `K·exp(0) = 5`. -/
theorem put_lower_boundary_cex :
    expl_bc oneE cp3 (bcQ cp3) 0 0 = -5 ∧
      cp3.K * discountF oneE cp3 0 = 5 ∧
      ¬expl_bc oneE cp3 (bcQ cp3) 0 0 = cp3.K * discountF oneE cp3 0 := by
  decide

/-- C3 amended: for a European put under the invariant
`Smax > max(K, S0)` (with `K > 0`, `M ≥ 1`), after
`setup_boundary_conditions` the upper row `i = M` is `0` at every time
column, while the lower row `i = 0` equals `(K - Smax)·exp(-r·dt·(N-j))`
— not `K·exp(-r·dt·(N-j))` — at every column `j < N`, and equals `K` at
the terminal column `j = N`. -/
theorem put_boundary_rows (E : ℚ → ℚ) (p : FDParams) (hput : p.is_put = true)
    (hK : 0 < p.K) (hS : max p.K p.S0 < p.Smax) (hM : 1 ≤ p.M) :
    (∀ j, j ≤ p.N → expl_bc E p (bcQ p) p.M j = 0) ∧
      (∀ j, j < p.N →
        expl_bc E p (bcQ p) 0 j = (p.K - p.Smax) * discountF E p j) ∧
      expl_bc E p (bcQ p) 0 p.N = p.K := by
  have hcall : fdIsCall p = false := by simp [fdIsCall, hput]
  have hM0 : (p.M : ℚ) ≠ 0 := Nat.cast_ne_zero.mpr (by omega)
  have hKS : p.K < p.Smax := lt_of_le_of_lt (le_max_left _ _) hS
  have hM1 : p.M ≠ 0 := by omega
  unfold expl_bc
  rw [hcall]
  simp only [Bool.false_eq_true, if_false]
  refine ⟨?_, ?_, ?_⟩
  · intro j hj
    by_cases hjN : j = p.N
    · subst hjN
      have hbcM : bcQ p p.M = p.Smax := by
        unfold bcQ; rw [mul_div_assoc, div_self hM0, mul_one]
      have hmax : max 0 (p.K - p.Smax) = 0 := max_eq_left (by linarith)
      simp [setRowCols, setTerminal, hM1, hbcM, hmax]
    · have hjlt : j < p.N := lt_of_le_of_ne hj hjN
      simp [setRowCols, setTerminal, npZeros, hjN, hM1]
  · intro j hjlt
    simp [setRowCols, hjlt]
  · have hbc0 : bcQ p 0 = 0 := by unfold bcQ; simp
    have hmax : max 0 p.K = p.K := max_eq_right hK.le
    simp [setRowCols, setTerminal, hbc0, sub_zero, hmax]

/-- Witness for the amended C3 at the concrete put `cp3`. -/
theorem put_boundary_rows_w :
    expl_bc oneE cp3 (bcQ cp3) cp3.M 0 = 0 ∧
      expl_bc oneE cp3 (bcQ cp3) 0 0 = (cp3.K - cp3.Smax) * discountF oneE cp3 0 ∧
      expl_bc oneE cp3 (bcQ cp3) 0 cp3.N = cp3.K := by
  have h := put_boundary_rows oneE cp3 (by decide) (by decide) (by decide)
    (by decide)
  exact ⟨h.1 0 (by decide), h.2.1 0 (by decide), h.2.2⟩

/-- C4: the Crank-Nicolson operators `M1` and `M2` are built from the
same `alpha`, `beta`, `gamma` with opposite signs around the identity:
at interior index `i = k+1` the sub/diagonal/super entries of `M1` are
`(-alpha[i], 1-beta[i], -gamma[i])` and those of `M2` are
`(alpha[i], 1+beta[i], gamma[i])`, hence `M1 + M2 = 2·I` entrywise. -/
theorem cn_operators_opposite_signs (p : FDParams) :
    cnM1 p + cnM2 p = (2 : ℚ) • (1 : Matrix (Fin (p.M - 1)) (Fin (p.M - 1)) ℚ) ∧
      ∀ k l : Fin (p.M - 1),
        ((k : ℕ) = (l : ℕ) + 1 →
          cnM1 p k l = -cn_alphaF p ((k : ℕ) + 1) ∧
            cnM2 p k l = cn_alphaF p ((k : ℕ) + 1)) ∧
        (k = l →
          cnM1 p k l = 1 - cn_betaF p ((k : ℕ) + 1) ∧
            cnM2 p k l = 1 + cn_betaF p ((k : ℕ) + 1)) ∧
        ((l : ℕ) = (k : ℕ) + 1 →
          cnM1 p k l = -cn_gammaF p ((k : ℕ) + 1) ∧
            cnM2 p k l = cn_gammaF p ((k : ℕ) + 1)) := by
  constructor
  · ext k l
    simp only [cnM1, cnM2, npDiagL, npDiag0, npDiagU, Matrix.add_apply,
      Matrix.sub_apply, Matrix.neg_apply, Matrix.smul_apply,
      Matrix.of_apply, smul_eq_mul]
    rcases eq_or_ne k l with rfl | hne
    · have hF : ¬(k : ℕ) = (k : ℕ) + 1 := by omega
      rw [Matrix.one_apply_eq]
      rw [if_neg hF]
      rw [if_neg hF]
      split_ifs with hT
      · ring
      · exact absurd rfl hT
    · have hv : ¬(k : ℕ) = (l : ℕ) := fun h => hne (Fin.ext h)
      rw [Matrix.one_apply_ne hne]
      rw [if_neg hv]
      rw [if_neg hv]
      split_ifs <;> ring
  · intro k l
    refine ⟨?_, ?_, ?_⟩
    · intro h
      have h2 : (l : ℕ) + 2 = (k : ℕ) + 1 := by omega
      constructor
      · simp only [cnM1, npDiagL, npDiag0, npDiagU, Matrix.add_apply,
          Matrix.sub_apply, Matrix.neg_apply, Matrix.of_apply]
        rw [if_pos h, if_neg (by omega : ¬(k : ℕ) = (l : ℕ)),
          if_neg (by omega : ¬(l : ℕ) = (k : ℕ) + 1), h2]
        ring
      · simp only [cnM2, npDiagL, npDiag0, npDiagU, Matrix.add_apply,
          Matrix.of_apply]
        rw [if_pos h, if_neg (by omega : ¬(k : ℕ) = (l : ℕ)),
          if_neg (by omega : ¬(l : ℕ) = (k : ℕ) + 1), h2]
        ring
    · intro h
      subst h
      have hF : ¬(k : ℕ) = (k : ℕ) + 1 := by omega
      constructor
      · simp only [cnM1, npDiagL, npDiag0, npDiagU, Matrix.add_apply,
          Matrix.sub_apply, Matrix.neg_apply, Matrix.of_apply]
        rw [if_neg hF, if_neg hF]
        split_ifs with hT
        · ring
        · exact absurd trivial hT
      · simp only [cnM2, npDiagL, npDiag0, npDiagU, Matrix.add_apply,
          Matrix.of_apply]
        rw [if_neg hF, if_neg hF]
        split_ifs with hT
        · ring
        · exact absurd trivial hT
    · intro h
      constructor
      · simp only [cnM1, npDiagL, npDiag0, npDiagU, Matrix.add_apply,
          Matrix.sub_apply, Matrix.neg_apply, Matrix.of_apply]
        rw [if_pos h, if_neg (by omega : ¬(k : ℕ) = (l : ℕ) + 1),
          if_neg (by omega : ¬(k : ℕ) = (l : ℕ))]
        ring
      · simp only [cnM2, npDiagL, npDiag0, npDiagU, Matrix.add_apply,
          Matrix.of_apply]
        rw [if_pos h, if_neg (by omega : ¬(k : ℕ) = (l : ℕ) + 1),
          if_neg (by omega : ¬(k : ℕ) = (l : ℕ))]
        ring

/-- Witness for C4 at `M = 4`, sub-diagonal entry `(1,0)` and diagonal
entry `(0,0)`. -/
theorem cn_operators_opposite_signs_w :
    (cnM1 cp4 ⟨1, by decide⟩ ⟨0, by decide⟩ = -cn_alphaF cp4 2 ∧
        cnM2 cp4 ⟨1, by decide⟩ ⟨0, by decide⟩ = cn_alphaF cp4 2) ∧
      (cnM1 cp4 ⟨0, by decide⟩ ⟨0, by decide⟩ = 1 - cn_betaF cp4 1 ∧
        cnM2 cp4 ⟨0, by decide⟩ ⟨0, by decide⟩ = 1 + cn_betaF cp4 1) :=
  ⟨((cn_operators_opposite_signs cp4).2 ⟨1, by decide⟩ ⟨0, by decide⟩).1
      (by decide),
    (((cn_operators_opposite_signs cp4).2 ⟨0, by decide⟩ ⟨0, by decide⟩).2.1
      rfl)⟩

theorem npInterp_knot :
    ∀ l : List (ℚ × ℚ), l.Pairwise (fun s t => s.1 < t.1) →
      ∀ qx qy : ℚ, (qx, qy) ∈ l → npInterp qx l = qy := by
  intro l
  induction l with
  | nil => intro _ qx qy hq; cases hq
  | cons a rest ih =>
    intro hp qx qy hq
    obtain ⟨ax, ay⟩ := a
    rcases rest with _ | ⟨⟨bx, bv⟩, rest2⟩
    · rcases List.mem_singleton.mp hq with heq
      injection heq with h1 h2
      subst h1; subst h2
      rfl
    · rcases List.mem_cons.mp hq with heq | hq2
      · injection heq with h1 h2
        subst h1; subst h2
        have hab : qx < bx :=
          (List.pairwise_cons.mp hp).1 (bx, bv) (List.mem_cons_self _ _)
        simp only [npInterp]
        rw [if_neg (lt_irrefl qx), if_pos hab.le]
        simp
      · have hq1 : ax < qx := by
          have := (List.pairwise_cons.mp hp).1 (qx, qy) hq2
          simpa using this
        rcases List.mem_cons.mp hq2 with heq | hq3
        · injection heq with h1 h2
          subst h1; subst h2
          simp only [npInterp]
          rw [if_neg (not_lt.mpr hq1.le), if_pos le_rfl]
          have hne : qx - ax ≠ 0 := sub_ne_zero.mpr (ne_of_gt hq1)
          rw [mul_div_assoc, div_self hne, mul_one]
          ring
        · have hbq : bx < qx := by
            have := (List.pairwise_cons.mp (List.pairwise_cons.mp hp).2).1
              (qx, qy) hq3
            simpa using this
          simp only [npInterp]
          rw [if_neg (not_lt.mpr hq1.le), if_neg (not_le.mpr hbq)]
          exact ih (List.pairwise_cons.mp hp).2 qx qy hq2

theorem bcQ_strictMono (p : FDParams) (hM : 1 ≤ p.M) (hS : 0 < p.Smax) :
    ∀ a b : ℕ, a < b → bcQ p a < bcQ p b := by
  intro a b hab
  have hMq : (0 : ℚ) < (p.M : ℚ) := by exact_mod_cast Nat.pos_of_ne_zero (by omega)
  have hab2 : (a : ℚ) < (b : ℚ) := by exact_mod_cast hab
  unfold bcQ
  rw [div_lt_div_iff_of_pos_right hMq]
  exact mul_lt_mul_of_pos_left hab2 hS

theorem knots_pairwise (p : FDParams) (hM : 1 ≤ p.M) (hS : 0 < p.Smax)
    (f : ℕ → ℚ) (n : ℕ) :
    ((List.range n).map (fun t => (bcQ p t, f t))).Pairwise
      (fun s t => s.1 < t.1) := by
  rw [List.pairwise_map]
  exact (List.pairwise_lt_range n).imp (fun h => bcQ_strictMono p hM hS _ _ h)

/-- C9: interpolation is idempotent at grid nodes.  For the European
schemes, interpolating at the exact node price `boundary_conds[i]`
returns the stored column-0 value `grid[i,0]`; for the American variant,
interpolating at `boundary_conds[i]` on a value vector returns
`values[i]`. -/
theorem interp_idempotent_at_knots (p : FDParams) (pa : AmParams)
    (g : ℕ → ℕ → ℚ) (vals : List ℚ) (i ia : ℕ)
    (hM : 1 ≤ p.M) (hS : 0 < p.Smax) (hi : i ≤ p.M)
    (hMa : 1 ≤ pa.M) (hSa : 0 < pa.Smax) (hia : ia ≤ pa.M) :
    (p.S0 = bcQ p i → fdInterpolate p g = g i 0) ∧
      (pa.S0 = bcQ pa.toFDParams ia →
        amInterpolate pa vals = vals.getD ia 0) := by
  constructor
  · intro hS0
    unfold fdInterpolate euKnots
    rw [hS0]
    exact npInterp_knot _ (knots_pairwise p hM hS _ _) _ _
      (List.mem_map_of_mem _ (List.mem_range.mpr (by omega)))
  · intro hS0
    unfold amInterpolate
    rw [hS0]
    exact npInterp_knot _ (knots_pairwise pa.toFDParams hMa hSa _ _) _ _
      (List.mem_map_of_mem _ (List.mem_range.mpr (by omega)))

/-- Witness for C9: spot `S0 = 3` is exactly node `i = 3` of
`linspace(0, 4, 5)`; interpolation returns the stored node values. -/
theorem interp_idempotent_at_knots_w :
    fdInterpolate cp9 g9 = g9 3 0 ∧ amInterpolate cp9a vals9 = vals9.getD 3 0 := by
  have h := interp_idempotent_at_knots cp9 cp9a g9 vals9 3 3 (by decide)
    (by decide) (by decide) (by decide) (by decide) (by decide)
  exact ⟨h.1 (by decide), h.2 (by decide)⟩

theorem explTraverse_row (p : FDParams) (L : List ℕ) (g : ℕ → ℕ → ℚ)
    (a b : ℕ) (ha : a ∉ innerIdx p.M) :
    explTraverse p L g a b = g a b := by
  induction L generalizing g with
  | nil => rfl
  | cons j rest ih =>
    simp only [explTraverse]
    rw [ih _, explInner_ne p j _ _ a b (Or.inr ha)]

/-- C10: the explicit traversal never writes interior row `i = 1` (its
loop starts at `i = 2`), so for every `j < N` the grid entry at row 1
keeps its zero initialisation after `FDExplicitEu.traverse_grid`; the
interpolated price for a spot strictly between the first two price nodes
is therefore computed from that zero:
`price = grid[0,0]·(1 - S0·M/Smax)`. -/
theorem expl_row_one_untouched (E : ℚ → ℚ) (p : FDParams)
    (hM : 2 ≤ p.M) (hN : 1 ≤ p.N) :
    (∀ j, j < p.N → explGrid E p 1 j = 0) ∧
      (0 < p.S0 → p.S0 ≤ bcQ p 1 →
        fdInterpolate p (explGrid E p) =
          explGrid E p 0 0 * (1 - p.S0 * (p.M : ℚ) / p.Smax)) := by
  have h1 : (1 : ℕ) ∉ innerIdx p.M := by rw [mem_innerIdx]; omega
  have hrow : ∀ j, j < p.N → explGrid E p 1 j = 0 := by
    intro j hj
    have hM1 : (1 : ℕ) ≠ p.M := by omega
    have hjN : j ≠ p.N := by omega
    unfold explGrid
    rw [explTraverse_row p _ _ 1 j h1]
    unfold expl_bc
    split_ifs with hc <;> simp [setRowCols, setTerminal, npZeros, hM1, hjN]
  refine ⟨hrow, ?_⟩
  intro hS0 hS1
  obtain ⟨m, hm⟩ : ∃ m, p.M = m + 2 := ⟨p.M - 2, by omega⟩
  have hsplit : ∀ (f : ℕ → ℚ × ℚ) (n : ℕ),
      (List.range (n + 2)).map f =
        f 0 :: f 1 :: (List.range n).map (fun t => f (t + 2)) := by
    intro f n
    rw [List.range_succ_eq_map, List.range_succ_eq_map]
    simp [List.map_map, Function.comp_def]
  have hbc0 : bcQ p 0 = 0 := by unfold bcQ; simp
  have hg10 : explGrid E p 1 0 = 0 := hrow 0 (by omega)
  have hMpos : 0 < p.M := by omega
  have hSpos : 0 < p.Smax := by
    by_contra hle
    push_neg at hle
    have hb1 : bcQ p 1 ≤ 0 := by
      unfold bcQ
      apply div_nonpos_of_nonpos_of_nonneg
      · simpa using hle
      · positivity
    linarith
  unfold fdInterpolate euKnots
  rw [show p.M + 1 = (p.M - 1) + 2 by omega, hsplit]
  simp only [npInterp]
  rw [hbc0, hg10]
  rw [if_neg (not_lt.mpr hS0.le), if_pos hS1]
  have hM0 : (p.M : ℚ) ≠ 0 := Nat.cast_ne_zero.mpr (by omega)
  have hS0' : p.Smax ≠ 0 := ne_of_gt hSpos
  unfold bcQ
  field_simp
  ring

/-- Witness for C10 at concrete parameters (`M = 4`, `N = 2`,
`S0 = 1 = dS`). -/
theorem expl_row_one_untouched_w :
    explGrid oneE cp10 1 0 = 0 ∧
      fdInterpolate cp10 (explGrid oneE cp10) =
        explGrid oneE cp10 0 0 * (1 - cp10.S0 * (cp10.M : ℚ) / cp10.Smax) := by
  have h := expl_row_one_untouched oneE cp10 (by decide) (by decide)
  exact ⟨h.1 0 (by decide), h.2 (by decide) (by decide)⟩

/-- C7 counterexample: `cp7` has `T = -1 ≤ 0`, which the spec's
`InvalidParameters` kind must reject, yet nothing in the code validates:
the solver is built and `price()` runs to completion, returning the
number `0` instead of failing. -/
theorem no_param_validation_cex :
    specInvalidParams cp7 ∧ explPrice oneE cp7 = 0 := by
  constructor
  · decide
  · decide

/-- C7 amended: the constructor performs no validation whatsoever.  Even
for parameter sets satisfying the spec's `InvalidParameters` predicate,
the grid is allocated zero-initialised, the traversal performs its
normal backward recursion, and `price()` returns the interpolated value
— no rejection happens before grid allocation or at any later point. -/
theorem invalid_params_still_priced (E : ℚ → ℚ) (p : FDParams)
    (hbad : specInvalidParams p) :
    (∀ a b, npZeros a b = 0) ∧
      (∀ i j, 2 ≤ i → i ≤ p.M - 1 → j < p.N →
        explGrid E p i j =
          expl_aF p i * explGrid E p (i - 1) (j + 1) +
            expl_bF p i * explGrid E p i (j + 1) +
            expl_cF p i * explGrid E p (i + 1) (j + 1)) ∧
      explPrice E p = npInterp p.S0 (euKnots p (explGrid E p)) := by
  refine ⟨fun a b => rfl, ?_, rfl⟩
  intro i j h2 hiM hj
  have hi : i ∈ innerIdx p.M := mem_innerIdx.mpr ⟨h2, by omega⟩
  unfold explGrid
  exact explTraverse_rec p (jRev p.N) (jRev_pairwise p.N) _ i j
    (mem_jRev.mpr hj) hi

/-- Witness for the amended C7 at the invalid parameters `cp7b`
(`T = -1`). -/
theorem invalid_params_still_priced_w :
    explGrid oneE cp7b 2 0 =
      expl_aF cp7b 2 * explGrid oneE cp7b 1 1 +
        expl_bF cp7b 2 * explGrid oneE cp7b 2 1 +
        expl_cF cp7b 2 * explGrid oneE cp7b 3 1 ∧
      explPrice oneE cp7b = npInterp cp7b.S0 (euKnots cp7b (explGrid oneE cp7b)) := by
  have h := invalid_params_still_priced oneE cp7b (by decide)
  exact ⟨h.2.1 2 0 (by decide) (by decide) (by decide), h.2.2⟩

theorem cnTraverse_row0 (m : ℕ) (m2 : Matrix (Fin (m - 1)) (Fin (m - 1)) ℚ)
    (solve : (ℕ → ℚ) → ℕ → ℚ) (L : List ℕ) (g : ℕ → ℕ → ℚ) (b : ℕ) :
    cnTraverse m m2 solve L g 0 b = g 0 b := by
  induction L generalizing g with
  | nil => rfl
  | cons j rest ih =>
    simp only [cnTraverse]
    rw [ih]
    simp

/-- C8 (code bug): for the down-and-out put `cp8` (barrier 40, strike
50, `Smax = 100`, `r = 0`), the inherited boundary setter leaves the
barrier row `i = 0` at `(K-Smax)·exp(0) = -50` for `j < N` and at
`max(0, K-Sbarrier) = 10` at `j = N`, and the Crank-Nicolson traversal
never touches row 0 — so after boundary setup and traversal the barrier
boundary is NOT 0, whatever the linear solver returns. -/
theorem barrier_row_nonzero_at_failing_input :
    ∀ solve : (ℕ → ℚ) → ℕ → ℚ,
      cnDoGrid oneE solve cp8 0 0 = -50 ∧ cnDoGrid oneE solve cp8 0 1 = 10 ∧
        ¬cnDoGrid oneE solve cp8 0 0 = 0 ∧ ¬cnDoGrid oneE solve cp8 0 1 = 0 := by
  intro solve
  unfold cnDoGrid
  rw [cnTraverse_row0, cnTraverse_row0]
  refine ⟨by decide, by decide, by decide, by decide⟩

theorem psorLoop_zero (p : AmParams) (rhs old nv past : List ℚ) (err : PErr) :
    psorLoop p rhs 0 old nv past err =
      if errGuard p.tol err then none else some (nv, past) := rfl

theorem psorLoop_succ (p : AmParams) (rhs : List ℚ) (fuel : ℕ)
    (old nv past : List ℚ) (err : PErr) :
    psorLoop p rhs (fuel + 1) old nv past err =
      if errGuard p.tol err then
        psorLoop p rhs fuel (amSweep p rhs old nv) (amSweep p rhs old nv)
          (amSweep p rhs old nv)
          (PErr.normSq (errSqSum (amSweep p rhs old nv) old (p.M - 1)))
      else some (nv, past) := rfl

theorem mem_innerK {M k : ℕ} : k ∈ innerK M ↔ 1 ≤ k ∧ k < M - 2 := by
  unfold innerK
  rcases le_or_lt 1 (M - 2) with h | h
  · rw [drop_range_eq 1 (M - 2) h]
    simp only [List.mem_map, List.mem_range]
    constructor
    · rintro ⟨t, ht, rfl⟩; omega
    · rintro ⟨h1, h2⟩; exact ⟨k - 1, by omega, by omega⟩
  · have hnil : (List.range (M - 2)).drop 1 = [] :=
      List.drop_eq_nil_of_le (by simpa using by omega)
    rw [hnil]
    simp
    omega

theorem foldl_set_length (f : List ℚ → ℕ → ℚ) :
    ∀ (L : List ℕ) (s : List ℚ),
      (L.foldl (fun s2 x => s2.set x (f s2 x)) s).length = s.length := by
  intro L
  induction L with
  | nil => intro s; rfl
  | cons x rest ih => intro s; rw [List.foldl_cons, ih, List.length_set]

theorem foldl_set_preserve (f : List ℚ → ℕ → ℚ) :
    ∀ (L : List ℕ) (s : List ℚ) (k : ℕ), k ∉ L →
      (L.foldl (fun s2 x => s2.set x (f s2 x)) s).getD k 0 = s.getD k 0 := by
  intro L
  induction L with
  | nil => intro s k _; rfl
  | cons x rest ih =>
    intro s k hk
    have h1 : k ≠ x := fun he => hk (he ▸ List.mem_cons_self x rest)
    have h2 : k ∉ rest := fun hm => hk (List.mem_cons_of_mem x hm)
    rw [List.foldl_cons, ih _ _ h2, getD_set_ne _ _ _ _ (fun he => h1 he.symm)]

theorem foldl_set_max_ge (pay : List ℚ) (w : List ℚ → ℕ → ℚ) :
    ∀ (L : List ℕ) (s : List ℚ) (k : ℕ),
      (∀ x ∈ L, x < s.length) → k < s.length →
      (pay.getD k 0 ≤ s.getD k 0 ∨ k ∈ L) →
      pay.getD k 0 ≤
        (L.foldl (fun s2 x => s2.set x (max (pay.getD x 0) (w s2 x))) s).getD
          k 0 := by
  intro L
  induction L with
  | nil =>
    intro s k _ _ hd
    rcases hd with hd | hd
    · exact hd
    · cases hd
  | cons x rest ih =>
    intro s k hL hk hd
    rw [List.foldl_cons]
    have hx : x < s.length := hL x (List.mem_cons_self x rest)
    have hL2 : ∀ y ∈ rest, y < (s.set x (max (pay.getD x 0) (w s x))).length := by
      intro y hy
      rw [List.length_set]
      exact hL y (List.mem_cons_of_mem x hy)
    have hk2 : k < (s.set x (max (pay.getD x 0) (w s x))).length := by
      rw [List.length_set]; exact hk
    apply ih _ k hL2 hk2
    rcases eq_or_ne k x with rfl | hne
    · left
      rw [getD_set_self _ _ _ hx]
      exact le_max_left _ _
    · rcases hd with hd | hd
      · left
        rw [getD_set_ne _ _ _ _ (fun he => hne he.symm)]
        exact hd
      · rcases List.mem_cons.mp hd with rfl | hd2
        · left
          rw [getD_set_self _ _ _ hx]
          exact le_max_left _ _
        · right
          exact hd2

theorem amSweep_length (p : AmParams) (rhs old nv : List ℚ) :
    (amSweep p rhs old nv).length = nv.length := by
  unfold amSweep
  rw [List.length_set, foldl_set_length, List.length_set]

theorem amSweep_ge (p : AmParams) (rhs old nv : List ℚ)
    (hlen : nv.length = p.M - 1) :
    ∀ k, k < p.M - 1 →
      (amPayoffs p).getD k 0 ≤ (amSweep p rhs old nv).getD k 0 := by
  intro k hk
  unfold amSweep
  have hs0len : (nv.set 0
      (max ((amPayoffs p).getD 0 0)
        (old.getD 0 0 + p.omega / (1 - cn_betaF p.toFDParams 1) *
          (rhs.getD 0 0 - (1 - cn_betaF p.toFDParams 1) * old.getD 0 0 +
            cn_gammaF p.toFDParams 1 * old.getD 1 0)))).length = p.M - 1 := by
    rw [List.length_set]; exact hlen
  have hs1len :
      ((innerK p.M).foldl (fun s k2 => s.set k2
        (max ((amPayoffs p).getD k2 0)
          (old.getD k2 0 + p.omega / (1 - cn_betaF p.toFDParams (k2 + 1)) *
            (rhs.getD k2 0 +
              cn_alphaF p.toFDParams (k2 + 1) * s.getD (k2 - 1) 0 -
              (1 - cn_betaF p.toFDParams (k2 + 1)) * old.getD k2 0 +
              cn_gammaF p.toFDParams (k2 + 1) * old.getD (k2 + 1) 0))))
        (nv.set 0
          (max ((amPayoffs p).getD 0 0)
            (old.getD 0 0 + p.omega / (1 - cn_betaF p.toFDParams 1) *
              (rhs.getD 0 0 - (1 - cn_betaF p.toFDParams 1) * old.getD 0 0 +
                cn_gammaF p.toFDParams 1 * old.getD 1 0))))).length =
        p.M - 1 := by
    rw [foldl_set_length]
    exact hs0len
  rcases eq_or_ne k (p.M - 2) with rfl | hk2
  · rw [getD_set_self _ _ _ (by rw [hs1len]; exact hk)]
    exact le_max_left _ _
  · rw [getD_set_ne _ _ _ _ (fun he => hk2 he.symm)]
    by_cases hmem : k ∈ innerK p.M
    · apply foldl_set_max_ge
      · intro x hx
        rw [hs0len]
        have := mem_innerK.mp hx
        omega
      · rw [hs0len]; exact hk
      · right; exact hmem
    · have hk0 : k = 0 := by
        by_contra hne0
        exact hmem (mem_innerK.mpr ⟨by omega, by omega⟩)
      subst hk0
      rw [foldl_set_preserve _ _ _ _ (fun h => by
        have := mem_innerK.mp h
        omega)]
      rw [getD_set_self _ _ _ (by rw [hlen]; exact hk)]
      exact le_max_left _ _

theorem psorLoop_ge (p : AmParams) (rhs : List ℚ) :
    ∀ (fuel : ℕ) (old nv past : List ℚ) (err : PErr),
      nv.length = p.M - 1 → past.length = p.M - 1 →
      (∀ k, k < p.M - 1 → (amPayoffs p).getD k 0 ≤ past.getD k 0) →
      ∀ res, psorLoop p rhs fuel old nv past err = some res →
        (∀ k, k < p.M - 1 → (amPayoffs p).getD k 0 ≤ res.2.getD k 0) ∧
          res.1.length = p.M - 1 ∧ res.2.length = p.M - 1 := by
  intro fuel
  induction fuel with
  | zero =>
    intro old nv past err hnv hpast hge res hres
    rw [psorLoop_zero] at hres
    split at hres
    · cases hres
    · injection hres with h
      subst h
      exact ⟨hge, hnv, hpast⟩
  | succ fuel ih =>
    intro old nv past err hnv hpast hge res hres
    rw [psorLoop_succ] at hres
    split at hres
    · have hswlen : (amSweep p rhs old nv).length = p.M - 1 := by
        rw [amSweep_length]; exact hnv
      exact ih _ _ _ _ hswlen hswlen
        (fun k hk => amSweep_ge p rhs old nv hnv k hk) res hres
    · injection hres with h
      subst h
      exact ⟨hge, hnv, hpast⟩

theorem amTraverse_ge (E : ℚ → ℚ) (p : AmParams) :
    ∀ (js : List ℕ) (past nv : List ℚ) (fuel : ℕ),
      nv.length = p.M - 1 → past.length = p.M - 1 →
      (∀ k, k < p.M - 1 → (amPayoffs p).getD k 0 ≤ past.getD k 0) →
      ∀ res, amTraverse E p js past nv fuel = some res →
        ∀ k, k < p.M - 1 → (amPayoffs p).getD k 0 ≤ res.2.getD k 0 := by
  intro js
  induction js with
  | nil =>
    intro past nv fuel hnv hpast hge res hres
    simp only [amTraverse] at hres
    injection hres with h
    subst h
    exact hge
  | cons j rest ih =>
    intro past nv fuel hnv hpast hge res hres
    simp only [amTraverse] at hres
    cases hp : psorLoop p (amRhs E p j past) fuel past nv past PErr.initMax with
    | none => rw [hp] at hres; cases hres
    | some r =>
      obtain ⟨r1, r2⟩ := r
      rw [hp] at hres
      have h3 := psorLoop_ge p _ fuel past nv past PErr.initMax hnv hpast hge
        (r1, r2) hp
      exact ih r2 r1 fuel h3.2.1 h3.2.2 h3.1 res hres

/-- C5: in the American PSOR solver every node update is clamped below
by the fixed early-exercise payoff (`newValue[k] = max(payoff[k], ·)` in
all three update formulas), so every sweep output dominates the payoff
vector pointwise, and whenever `traverse_grid` completes, the final
committed `past_values` satisfies `past_values[k] ≥ payoffs[k]` at every
interior index `k` (the same holds for every intermediate commit, each
being a sweep output). -/
theorem psor_clamped_above_payoff (E : ℚ → ℚ) (p : AmParams) (hM : 3 ≤ p.M) :
    (∀ rhs old nv, nv.length = p.M - 1 →
        ∀ k, k < p.M - 1 →
          (amPayoffs p).getD k 0 ≤ (amSweep p rhs old nv).getD k 0) ∧
      ∀ fuel res,
        amTraverse E p (jRev p.N) (amPayoffs p)
            (List.replicate (p.M - 1) 0) fuel = some res →
          ∀ k, k < p.M - 1 → (amPayoffs p).getD k 0 ≤ res.2.getD k 0 := by
  constructor
  · intro rhs old nv hnv k hk
    exact amSweep_ge p rhs old nv hnv k hk
  · intro fuel res hres k hk
    refine amTraverse_ge E p (jRev p.N) (amPayoffs p) _ fuel ?_ ?_ ?_ res hres
      k hk
    · simp
    · simp [amPayoffs]
    · intro k2 _; exact le_refl _

/-- Witness for C5 at `cp5` (`M = 3`, `N = 1`, `omega = 0`, `tol = 0`):
the solver converges in one sweep to the payoff vector `[1, 0]`, which
dominates the payoffs. -/
theorem psor_clamped_above_payoff_w :
    amTraverse oneE cp5 (jRev cp5.N) (amPayoffs cp5)
        (List.replicate (cp5.M - 1) 0) 3 = some ([1, 0], [1, 0]) ∧
      (amPayoffs cp5).getD 0 0 ≤ ([1, 0] : List ℚ).getD 0 0 := by
  constructor
  · decide
  · exact (psor_clamped_above_payoff oneE cp5 (by decide)).2 3 ([1, 0], [1, 0])
      (by decide) 0 (by decide)

theorem errGuard_of_neg (tol : ℚ) (h : tol < 0) :
    ∀ err : PErr, errGuard tol err = true := by
  intro err
  cases err with
  | initMax =>
    simp only [errGuard, decide_eq_true_eq]
    exact lt_of_lt_of_le h (by norm_num [floatMax])
  | normSq s => simp [errGuard, h]

/-- C6 counterexample: at `cp6` (`tol = -1`) the PSOR inner loop of the
first time step never exits, however many sweeps are allowed: there is
no defensive iteration cap in the code and no NonConvergence failure —
the loop simply runs forever. -/
theorem psor_no_iteration_cap_cex :
    ¬∃ (fuel : ℕ) (res : List ℚ × List ℚ),
        psorLoop cp6 (amRhs oneE cp6 0 (amPayoffs cp6)) fuel (amPayoffs cp6)
          (List.replicate (cp6.M - 1) 0) (amPayoffs cp6) PErr.initMax =
          some res := by
  have hfix : ∀ fuel, psorLoop cp6 (amRhs oneE cp6 0 (amPayoffs cp6)) fuel
      [1, 0] [1, 0] [1, 0] (PErr.normSq 0) = none := by
    intro fuel
    induction fuel with
    | zero =>
      rw [psorLoop_zero, if_pos (by decide)]
    | succ fuel ih =>
      rw [psorLoop_succ, if_pos (by decide)]
      rw [show amSweep cp6 (amRhs oneE cp6 0 (amPayoffs cp6)) [1, 0] [1, 0] =
        [1, 0] from by decide]
      rw [show errSqSum [1, 0] [1, 0] (cp6.M - 1) = 0 from by decide]
      exact ih
  rintro ⟨fuel, res, hres⟩
  cases fuel with
  | zero =>
    rw [psorLoop_zero, if_pos (by decide)] at hres
    cases hres
  | succ fuel =>
    rw [psorLoop_succ, if_pos (by decide)] at hres
    rw [show amSweep cp6 (amRhs oneE cp6 0 (amPayoffs cp6)) (amPayoffs cp6)
      (List.replicate (cp6.M - 1) 0) = [1, 0] from by decide] at hres
    rw [show errSqSum [1, 0] (amPayoffs cp6) (cp6.M - 1) = 0 from by decide]
      at hres
    rw [hfix fuel] at hres
    cases hres

/-- C6 amended: the PSOR loop guard is the exact comparison
`tol < error` with `error` the Euclidean norm of `new - old`
(`errGuard` encodes `tol < √s` on the squared norm `s`): the loop exits
at a sweep exactly when the error does not exceed `tol`.  The code has
no defensive iteration cap and surfaces no NonConvergence failure; when
the guard can never fail (e.g. any `tol < 0`) the loop never
terminates. -/
theorem psor_guard_semantics :
    (∀ tol s : ℚ, 0 ≤ s →
        (errGuard tol (PErr.normSq s) = false ↔
          Real.sqrt ((s : ℝ)) ≤ ((tol : ℝ)))) ∧
      (∀ (p : AmParams) (rhs : List ℚ) (fuel : ℕ) (old nv past : List ℚ)
          (err : PErr), errGuard p.tol err = false →
          psorLoop p rhs fuel old nv past err = some (nv, past)) ∧
      (∀ (p : AmParams) (rhs : List ℚ), p.tol < 0 →
        ∀ (fuel : ℕ) (old nv past : List ℚ) (err : PErr),
          psorLoop p rhs fuel old nv past err = none) := by
  refine ⟨?_, ?_, ?_⟩
  · intro tol s hs
    simp only [errGuard, Bool.or_eq_false_iff, decide_eq_false_iff_not, not_lt]
    rw [Real.sqrt_le_iff]
    constructor
    · rintro ⟨h1, h2⟩
      exact ⟨by exact_mod_cast h1, by exact_mod_cast h2⟩
    · rintro ⟨h1, h2⟩
      exact ⟨by exact_mod_cast h1, by exact_mod_cast h2⟩
  · intro p rhs fuel old nv past err h
    cases fuel with
    | zero => rw [psorLoop_zero, if_neg (by simp [h])]
    | succ f => rw [psorLoop_succ, if_neg (by simp [h])]
  · intro p rhs htol fuel
    induction fuel with
    | zero =>
      intro old nv past err
      rw [psorLoop_zero, if_pos (errGuard_of_neg p.tol htol err)]
    | succ f ih =>
      intro old nv past err
      rw [psorLoop_succ, if_pos (errGuard_of_neg p.tol htol err)]
      exact ih _ _ _ _

/-- Witness for the amended C6: the guard characterisation at
`tol = 1`, `s = 4`; an immediate exit of the loop once the error is
within tolerance (`cp5`, error 0, `tol = 0`); and non-termination for
`tol = -1` (`cp6`). -/
theorem psor_guard_semantics_w :
    (errGuard (1 : ℚ) (PErr.normSq 4) = false ↔
        Real.sqrt (((4 : ℚ) : ℝ)) ≤ (((1 : ℚ) : ℝ))) ∧
      psorLoop cp5 [] 5 [1, 0] [1, 0] [1, 0] (PErr.normSq 0) =
        some ([1, 0], [1, 0]) ∧
      psorLoop cp6 [] 2 [] [] [] PErr.initMax = none :=
  ⟨psor_guard_semantics.1 1 4 (by norm_num),
    psor_guard_semantics.2.1 cp5 [] 5 [1, 0] [1, 0] [1, 0] (PErr.normSq 0)
      (by decide),
    psor_guard_semantics.2.2 cp6 [] (by decide) 2 [] [] [] PErr.initMax⟩
end
